import Mathlib

/-!
Verification of `src/list_bom.py`, a scanner that walks a fixed root
directory with `os.walk(root)` and prints the root-relative path of every
file whose name ends in one of `.json .jsonc .mjs .js .ts .yaml .yml` and
whose first three bytes are the UTF-8 byte-order-mark `EF BB BF`.

Shallow embedding.  A directory listing is a `List Entry`; `os.walk`
(topdown, default `followlinks = false`) becomes `walkDirs`, the sequence
of `(dirpath, listing)` pairs it yields; the two nested `for` loops of the
script become `walkPairs` (the sequence of candidate files) and `emit`
(the loop body).  An unreadable file (whose `open`/`read` raises) carries
`none` as content; a failing `print` is modelled by the oracle `printOk`
saying which paths can be written to stdout; both failure modes land in
the script's `except Exception: pass`.  Root-relative paths are kept as
their component lists, which is what `os.path.relpath(os.path.join(
dirpath, name), root)` denotes independently of the platform separator.
-/

namespace BomScan

/-- A filesystem entry as seen by the scan.  A `file` carries its name and,
when `open`/`read` succeeds, its byte content (`none` models a file whose
open or read raises: permission denied, removed between listing and read,
I/O error).  A `dir` is a real directory with its listing.  A `dirlink` is
a symbolic link to a directory: `os.walk` lists it among `dirnames` but,
with its default `followlinks=False`, never descends into it; the stored
`target` is the link target path (relative to the root), inspected only by
the link-following walk used to study symlink cycles. -/
inductive Entry : Type where
  | file (name : String) (content : Option (List Nat))
  | dir (name : String) (entries : List Entry)
  | dirlink (name : String) (target : List String)

/-- A root-relative path, as its list of components. -/
abbrev Path := List String

/-- The name of an entry inside its directory listing. -/
def nameOf : Entry → String
  | .file n _ => n
  | .dir n _ => n
  | .dirlink n _ => n

/-- One candidate file met by the walk: the directory path it lives in
(root-relative, as components), its name, and its content (`none` when
opening or reading it raises). -/
structure FileRec : Type where
  dir : Path
  name : String
  content : Option (List Nat)
deriving DecidableEq, Repr

/-- The root-relative path of a candidate file. -/
def pathOf (r : FileRec) : Path := r.dir ++ [r.name]

mutual
/-- Well-formedness of a single entry: directory listings nested inside it
are well-formed.  Real filesystems satisfy this. -/
def wfEntry : Entry → Bool
  | .dir _ es => wfList es
  | _ => true
/-- Well-formedness of a directory listing: entry names are pairwise
distinct (a directory cannot hold two entries of the same name) and every
entry is well-formed. -/
def wfList : List Entry → Bool
  | [] => true
  | e :: rest =>
      wfEntry e && rest.all (fun x => nameOf x != nameOf e) && wfList rest
end

/-- Looks a subdirectory up by name in a listing (first match). -/
def findDir : List Entry → String → Option (List Entry)
  | [], _ => none
  | .dir m es :: rest, n => if m = n then some es else findDir rest n
  | _ :: rest, n => findDir rest n

/-- Follows a component path downward through real directories only,
returning the listing it ends at. -/
def dirAt (es : List Entry) : Path → Option (List Entry)
  | [] => some es
  | n :: rest =>
      match findDir es n with
      | some es1 => dirAt es1 rest
      | none => none

/-- Looks a regular file up by name in a listing (first match), returning
its content field. -/
def findFile : List Entry → String → Option (Option (List Nat))
  | [], _ => none
  | .file m c :: rest, n => if m = n then some c else findFile rest n
  | _ :: rest, n => findFile rest n

/-- The file named `n` in the directory at path `d` under the root listing
`es`: `some c` when such a file exists (with `c` its content field). -/
def fileAt (es : List Entry) (d : Path) (n : String) : Option (Option (List Nat)) :=
  match dirAt es d with
  | some ents => findFile ents n
  | none => none

mutual
/-- The `(dirpath, listing)` pairs `os.walk` yields below one entry:
nothing for files and (with `followlinks=False`) nothing for directory
symlinks; for a real directory, the directory itself first (topdown),
then its subtree, in listing order. -/
def walkEntry (pre : Path) : Entry → List (Path × List Entry)
  | .dir n es => (pre ++ [n], es) :: walkList (pre ++ [n]) es
  | .file _ _ => []
  | .dirlink _ _ => []
termination_by structural e => e
/-- The `(dirpath, listing)` pairs contributed by the subdirectories of a
listing, in listing order. -/
def walkList (pre : Path) : List Entry → List (Path × List Entry)
  | [] => []
  | e :: rest => walkEntry pre e ++ walkList pre rest
termination_by structural es => es
end

/-- The full `os.walk(root)` sequence: the root directory itself (its
`dirpath` is the empty relative path), then the recursive descent. -/
def walkDirs (es : List Entry) : List (Path × List Entry) :=
  ([], es) :: walkList [] es

/-- The candidate files of one yielded directory: the inner
`for name in filenames` loop ranges over the regular files of the listing,
in listing order. -/
def recsOfDir (p : Path × List Entry) : List FileRec :=
  p.2.filterMap fun e =>
    match e with
    | .file n c => some ⟨p.1, n, c⟩
    | _ => none

/-- Every candidate file the two nested loops of the script visit, in
visiting order. -/
def walkPairs (es : List Entry) : List FileRec :=
  (walkDirs es).flatMap recsOfDir

/-- The UTF-8 byte-order-mark, `b"\xef\xbb\xbf"`. -/
def bomBytes : List Nat := [0xEF, 0xBB, 0xBF]

/-- Case-sensitive suffix match on strings, Python's `str.endswith` with a
single pattern: the pattern's characters are a suffix of the string's. -/
def strEndsWith (s pat : String) : Bool :=
  pat.data.isSuffixOf s.data

/-- The filename filter of line 5 of the script:
`name.endswith(('.json', '.jsonc', '.mjs', '.js', '.ts', '.yaml', '.yml'))`
(a tuple argument matches when any of the seven suffixes matches). -/
def extMatch (name : String) : Bool :=
  strEndsWith name ".json" || strEndsWith name ".jsonc" ||
  strEndsWith name ".mjs" || strEndsWith name ".js" ||
  strEndsWith name ".ts" || strEndsWith name ".yaml" ||
  strEndsWith name ".yml"

/-- The loop body (lines 5-14 of the script) run on one candidate file:
skip unless the name has a recognized extension; open binary and read at
most 3 bytes (`head = f.read(3)`, an exception yields nothing thanks to
`except Exception: pass`); if `head.startswith(b'\xef\xbb\xbf')`, print
the root-relative path (a failing print also lands in the `except` and
yields nothing).  The returned list is what this iteration prints. -/
def emit (printOk : Path → Bool) (r : FileRec) : List Path :=
  if extMatch r.name then
    match r.content with
    | none => []
    | some bytes =>
        if bomBytes.isPrefixOf (bytes.take 3) then
          if printOk (pathOf r) then [pathOf r] else []
        else []
  else []

/-- The whole run of the script on a root listing: the lines printed, in
order, by running the loop body on every candidate file the walk meets. -/
def scan (printOk : Path → Bool) (es : List Entry) : List Path :=
  (walkPairs es).flatMap (emit printOk)

/-- The print oracle of a healthy stdout: every write succeeds. -/
def printAll : Path → Bool := fun _ => true

/-- The output of a normal run (stdout never fails). -/
def output (es : List Entry) : List Path :=
  scan printAll es

/-- Decision form of the loop body: a candidate is printed iff its name
matches an extension, its content was read and starts with the BOM, and
the print succeeds. -/
def keep (printOk : Path → Bool) (r : FileRec) : Bool :=
  extMatch r.name &&
    (match r.content with
     | some bytes => bomBytes.isPrefixOf (bytes.take 3)
     | none => false) &&
    printOk (pathOf r)

/-- A filesystem operation the process can issue.  The script only ever
lists directories (`os.walk`'s `scandir`), opens files for binary reading
and reads at most 3 bytes from them; a `write` operation is in the
vocabulary so that its absence from the scan's trace is a statement. -/
inductive FsOp : Type where
  | listdir (p : Path)
  | openRead (p : Path)
  | readBytes (p : Path) (count : Nat)
  | write (p : Path)
deriving DecidableEq, Repr

/-- Operations issued while handling the filenames of one yielded
directory: each name passing the extension filter is opened
(`open(path, 'rb')`) and, when the open succeeds, read (`f.read(3)`). -/
def fileOps (p : Path × List Entry) : List FsOp :=
  p.2.flatMap fun e =>
    match e with
    | .file n c =>
        if extMatch n then
          FsOp.openRead (p.1 ++ [n]) ::
            (match c with
             | some _ => [FsOp.readBytes (p.1 ++ [n]) 3]
             | none => [])
        else []
    | _ => []

/-- The full trace of filesystem operations of one run: for every yielded
directory, its `scandir` listing followed by the per-file opens/reads. -/
def scanTrace (es : List Entry) : List FsOp :=
  (walkDirs es).flatMap fun p => FsOp.listdir p.1 :: fileOps p

/-- An operation that does not modify the filesystem. -/
def readOnlyOp : FsOp → Bool
  | .listdir _ => true
  | .openRead _ => true
  | .readBytes _ _ => true
  | .write _ => false

/-- Filesystem semantics of one operation: listing, opening and reading
leave the tree as it is; a write transforms it by whatever semantics
`wSem` one chooses for writes. -/
def applyOp (wSem : Path → List Entry → List Entry) (es : List Entry) :
    FsOp → List Entry
  | .listdir _ => es
  | .openRead _ => es
  | .readBytes _ _ => es
  | .write p => wSem p es

/-- The filesystem state after running a trace of operations. -/
def runTrace (wSem : Path → List Entry → List Entry) (es : List Entry)
    (ops : List FsOp) : List Entry :=
  ops.foldl (applyOp wSem) es

/-- The state of the fixed root path when the process starts: `missing`
when it does not exist or is not a directory (so that `os.walk`'s initial
`scandir` raises `OSError`), `present` with its listing otherwise. -/
inductive RootState : Type where
  | missing
  | present (entries : List Entry)

/-- How a run of the process ends: normal exit with the printed lines, or
termination by an uncaught exception. -/
inductive ProgResult : Type where
  | exited (printed : List Path)
  | crashed
deriving DecidableEq, Repr

/-- The whole program, root state to result.  CPython's `os.walk` is
called with its default `onerror=None`, which ignores the `OSError` that
`scandir` raises on a missing or non-directory root: the generator then
yields nothing, the `for` loop body never runs, and the process exits
normally having printed nothing.  No statement of the script can raise
outside the per-file `try`, so a present root also exits normally. -/
def runProgram (printOk : Path → Bool) (root : RootState) : ProgResult :=
  match root with
  | .missing => .exited []
  | .present es => .exited (scan printOk es)

/-- Two directory listings of one and the same tree as two runs of the
scan may see them: the same entries in possibly different orders
(directory listing order is not guaranteed stable across runs),
recursively so inside subdirectories; names and file contents unchanged. -/
inductive ListingEquiv : List Entry → List Entry → Prop where
  | nil : ListingEquiv [] []
  | consSame (e : Entry) {es es1 : List Entry} :
      ListingEquiv es es1 → ListingEquiv (e :: es) (e :: es1)
  | consDir (n : String) {ds ds1 es es1 : List Entry} :
      ListingEquiv ds ds1 → ListingEquiv es es1 →
      ListingEquiv (Entry.dir n ds :: es) (Entry.dir n ds1 :: es1)
  | swap (e1 e2 : Entry) (es : List Entry) :
      ListingEquiv (e1 :: e2 :: es) (e2 :: e1 :: es)
  | trans {es1 es2 es3 : List Entry} :
      ListingEquiv es1 es2 → ListingEquiv es2 es3 → ListingEquiv es1 es3

mutual
/-- An entry with every directory symlink deleted from the listings that
hang below it. -/
def pruneEntry : Entry → Option Entry
  | .file n c => some (.file n c)
  | .dir n es => some (.dir n (pruneList es))
  | .dirlink _ _ => none
termination_by structural e => e
/-- A listing with every directory symlink deleted, recursively. -/
def pruneList : List Entry → List Entry
  | [] => []
  | e :: rest =>
      match pruneEntry e with
      | some e1 => e1 :: pruneList rest
      | none => pruneList rest
termination_by structural es => es
end

mutual
/-- A walk that, unlike the script's, follows directory symlinks
(`os.walk` with `followlinks=True`), with a fuel bound on the descent
depth: `none` means the bound was hit, i.e. the walk was still descending.
The symlink target is resolved against the root listing `root`; a target
that does not resolve to a directory is skipped, as `os.walk` skips what
it cannot list. -/
def followDir (root : List Entry) : Nat → Path → List Entry → Option (List FileRec)
  | 0, _, _ => none
  | fuel + 1, pre, es =>
      match followKids root fuel pre es with
      | some recs => some (recsOfDir (pre, es) ++ recs)
      | none => none
/-- The records below the children of one directory, for the
link-following walk. -/
def followKids (root : List Entry) : Nat → Path → List Entry → Option (List FileRec)
  | _, _, [] => some []
  | fuel, pre, .dir n es1 :: rest =>
      match followDir root fuel (pre ++ [n]) es1 with
      | some recs =>
          match followKids root fuel pre rest with
          | some recs1 => some (recs ++ recs1)
          | none => none
      | none => none
  | fuel, pre, .dirlink n tgt :: rest =>
      match dirAt root tgt with
      | some es1 =>
          match followDir root fuel (pre ++ [n]) es1 with
          | some recs =>
              match followKids root fuel pre rest with
              | some recs1 => some (recs ++ recs1)
              | none => none
          | none => none
      | none => followKids root fuel pre rest
  | fuel, pre, .file _ _ :: rest => followKids root fuel pre rest
end

/-- The link-following walk over a whole root listing. -/
def followWalk (root : List Entry) (fuel : Nat) : Option (List FileRec) :=
  match followKids root fuel [] root with
  | some recs => some (recsOfDir ([], root) ++ recs)
  | none => none

/-- A root listing with a directory-symlink cycle: the single entry is a
symlink to the root itself. -/
def cycRoot : List Entry :=
  [.dirlink "loop" []]

end BomScan

namespace BomScan

/-! Basic facts about the loop body and the run as a whole. -/

theorem emit_eq_keep (printOk : Path → Bool) (r : FileRec) :
    emit printOk r = if keep printOk r then [pathOf r] else [] := by
  rcases r with ⟨d, n, c⟩
  cases c with
  | none => simp [emit, keep]
  | some bytes =>
      simp only [emit, keep, pathOf]
      cases hx : extMatch n <;>
        cases hb : bomBytes.isPrefixOf (bytes.take 3) <;>
          cases hp : printOk (d ++ [n]) <;> simp_all

theorem flatMap_emit_eq (printOk : Path → Bool) (l : List FileRec) :
    l.flatMap (emit printOk) = (l.filter (keep printOk)).map pathOf := by
  induction l with
  | nil => rfl
  | cons r rest ih =>
      simp only [List.flatMap_cons, List.filter_cons, emit_eq_keep printOk r]
      cases h : keep printOk r <;> simp [h, ih]

theorem scan_eq (printOk : Path → Bool) (es : List Entry) :
    scan printOk es = ((walkPairs es).filter (keep printOk)).map pathOf :=
  flatMap_emit_eq printOk (walkPairs es)

theorem mem_scan_iff {printOk : Path → Bool} {es : List Entry} {p : Path} :
    p ∈ scan printOk es ↔
      ∃ r, r ∈ walkPairs es ∧ keep printOk r = true ∧ pathOf r = p := by
  rw [scan_eq]
  simp only [List.mem_map, List.mem_filter]
  constructor
  · rintro ⟨r, ⟨hr, hk⟩, hp⟩
    exact ⟨r, hr, hk, hp⟩
  · rintro ⟨r, hr, hk, hp⟩
    exact ⟨r, ⟨hr, hk⟩, hp⟩

theorem path_snoc_inj {d d1 : Path} {n n1 : String}
    (h : d ++ [n] = d1 ++ [n1]) : d = d1 ∧ n = n1 := by
  obtain ⟨h1, h2⟩ := List.append_inj' h rfl
  exact ⟨h1, by simpa using h2⟩

theorem bom_isPrefixOf_take (bytes : List Nat) :
    bomBytes.isPrefixOf (bytes.take 3) = true ↔ bytes.take 3 = bomBytes := by
  match bytes with
  | [] =>
      show bomBytes.isPrefixOf [] = true ↔ ([] : List Nat) = bomBytes
      simp [bomBytes, List.isPrefixOf]
  | [a] =>
      show bomBytes.isPrefixOf [a] = true ↔ [a] = bomBytes
      simp [bomBytes, List.isPrefixOf]
  | [a, b] =>
      show bomBytes.isPrefixOf [a, b] = true ↔ [a, b] = bomBytes
      simp [bomBytes, List.isPrefixOf]
  | a :: b :: c :: rest =>
      show bomBytes.isPrefixOf [a, b, c] = true ↔ [a, b, c] = bomBytes
      simp only [bomBytes, List.isPrefixOf, Bool.and_eq_true, beq_iff_eq,
        List.cons.injEq, and_true]
      omega

end BomScan

namespace BomScan

/-! Facts about well-formed listings and the lookup functions. -/

theorem wfList_cons {e : Entry} {rest : List Entry}
    (h : wfList (e :: rest) = true) :
    wfEntry e = true ∧ (∀ x ∈ rest, nameOf x ≠ nameOf e) ∧ wfList rest = true := by
  rw [wfList] at h
  simp only [Bool.and_eq_true, List.all_eq_true, bne_iff_ne, ne_eq] at h
  exact ⟨h.1.1, h.1.2, h.2⟩

theorem findDir_mem {es : List Entry} {n : String} {es1 : List Entry}
    (h : findDir es n = some es1) : Entry.dir n es1 ∈ es := by
  induction es with
  | nil => simp [findDir] at h
  | cons e rest ih =>
      match e with
      | .file m c => exact List.mem_cons_of_mem _ (ih h)
      | .dirlink m t => exact List.mem_cons_of_mem _ (ih h)
      | .dir m es2 =>
          by_cases hm : m = n
          · subst hm
            have h2 : some es2 = some es1 := by simpa [findDir] using h
            cases h2
            exact List.mem_cons_self _ _
          · have h2 : findDir rest n = some es1 := by simpa [findDir, hm] using h
            exact List.mem_cons_of_mem _ (ih h2)

theorem findDir_cons_of_ne {e : Entry} {rest : List Entry} {n : String}
    (hne : nameOf e ≠ n) : findDir (e :: rest) n = findDir rest n := by
  match e with
  | .file m c => rfl
  | .dirlink m t => rfl
  | .dir m es2 =>
      simp only [nameOf] at hne
      simp [findDir, hne]

theorem findFile_mem {es : List Entry} {n : String} {c : Option (List Nat)}
    (h : findFile es n = some c) : Entry.file n c ∈ es := by
  induction es with
  | nil => simp [findFile] at h
  | cons e rest ih =>
      match e with
      | .dir m es2 => exact List.mem_cons_of_mem _ (ih h)
      | .dirlink m t => exact List.mem_cons_of_mem _ (ih h)
      | .file m c1 =>
          by_cases hm : m = n
          · subst hm
            have h2 : some c1 = some c := by simpa [findFile] using h
            cases h2
            exact List.mem_cons_self _ _
          · have h2 : findFile rest n = some c := by simpa [findFile, hm] using h
            exact List.mem_cons_of_mem _ (ih h2)

theorem findFile_cons_of_ne {e : Entry} {rest : List Entry} {n : String}
    (hne : nameOf e ≠ n) : findFile (e :: rest) n = findFile rest n := by
  match e with
  | .dir m es2 => rfl
  | .dirlink m t => rfl
  | .file m c1 =>
      simp only [nameOf] at hne
      simp [findFile, hne]

theorem mem_findFile {es : List Entry} {n : String} {c : Option (List Nat)}
    (hwf : wfList es = true) (h : Entry.file n c ∈ es) :
    findFile es n = some c := by
  induction es with
  | nil => cases h
  | cons e rest ih =>
      obtain ⟨he, hdist, hrest⟩ := wfList_cons hwf
      rcases List.mem_cons.mp h with hfe | hmem
      · cases hfe
        simp [findFile]
      · have hne : nameOf e ≠ n := by
          have h1 := hdist _ hmem
          simp only [nameOf] at h1
          exact fun hcontra => h1 hcontra.symm
        rw [findFile_cons_of_ne hne]
        exact ih hrest hmem

theorem findDir_wf {es : List Entry} {n : String} {es1 : List Entry}
    (hwf : wfList es = true) (h : findDir es n = some es1) :
    wfList es1 = true := by
  induction es with
  | nil => simp [findDir] at h
  | cons e rest ih =>
      obtain ⟨he, _, hrest⟩ := wfList_cons hwf
      match e with
      | .file m c => exact ih hrest h
      | .dirlink m t => exact ih hrest h
      | .dir m es2 =>
          by_cases hm : m = n
          · subst hm
            have h2 : some es2 = some es1 := by simpa [findDir] using h
            cases h2
            rw [wfEntry] at he
            exact he
          · have h2 : findDir rest n = some es1 := by simpa [findDir, hm] using h
            exact ih hrest h2

theorem dirAt_wf {d : Path} {es ents : List Entry}
    (hwf : wfList es = true) (h : dirAt es d = some ents) :
    wfList ents = true := by
  induction d generalizing es with
  | nil => rw [dirAt] at h; cases h; exact hwf
  | cons n rest ih =>
      rw [dirAt] at h
      split at h
      · rename_i es1 hfind
        exact ih (findDir_wf hwf hfind) h
      · cases h

end BomScan

namespace BomScan

/-! Structure of the walk: which directories it yields, and their paths. -/

theorem walkEntry_cases {pre d : Path} {ents : List Entry} {e : Entry}
    (hx : (d, ents) ∈ walkEntry pre e) :
    ∃ n es1, e = Entry.dir n es1 ∧
      ((d, ents) = (pre ++ [n], es1) ∨ (d, ents) ∈ walkList (pre ++ [n]) es1) := by
  match e, hx with
  | .file n c, hx => simp [walkEntry] at hx
  | .dirlink n t, hx => simp [walkEntry] at hx
  | .dir n es1, hx =>
      rw [walkEntry] at hx
      exact ⟨n, es1, rfl, List.mem_cons.mp hx⟩

theorem walkList_shape (pre : Path) (es : List Entry) (x : Path × List Entry)
    (hx : x ∈ walkList pre es) :
    ∃ e, e ∈ es ∧ ∃ suf, x.1 = pre ++ nameOf e :: suf := by
  match es, hx with
  | [], hx => simp [walkList] at hx
  | e :: rest, hx =>
      rw [walkList] at hx
      rcases List.mem_append.mp hx with hx | hx
      · refine ⟨e, List.mem_cons_self _ _, ?_⟩
        obtain ⟨x1, x2⟩ := x
        obtain ⟨n, es1, rfl, hcase⟩ := walkEntry_cases hx
        rcases hcase with heq | hx2
        · injection heq with h1 h2
          exact ⟨[], by simp [nameOf, h1]⟩
        · obtain ⟨e1, _, suf, hsuf⟩ := walkList_shape (pre ++ [n]) es1 (x1, x2) hx2
          refine ⟨nameOf e1 :: suf, ?_⟩
          simp only at hsuf
          rw [hsuf]
          simp [nameOf]
      · obtain ⟨e1, he1, hs⟩ := walkList_shape pre rest x hx
        exact ⟨e1, List.mem_cons_of_mem _ he1, hs⟩
termination_by sizeOf es

theorem walkEntry_shape {pre : Path} {e : Entry} {x : Path × List Entry}
    (hx : x ∈ walkEntry pre e) : ∃ suf, x.1 = pre ++ nameOf e :: suf := by
  obtain ⟨x1, x2⟩ := x
  obtain ⟨n, es1, rfl, hcase⟩ := walkEntry_cases hx
  rcases hcase with heq | hx2
  · injection heq with h1 h2
    exact ⟨[], by simp [nameOf, h1]⟩
  · obtain ⟨e1, _, suf, hsuf⟩ := walkList_shape (pre ++ [n]) es1 (x1, x2) hx2
    refine ⟨nameOf e1 :: suf, ?_⟩
    simp only at hsuf
    rw [hsuf]
    simp [nameOf]

theorem walkEntry_mem_walkList {pre : Path} {e : Entry} {es : List Entry}
    (he : e ∈ es) {x : Path × List Entry} (hx : x ∈ walkEntry pre e) :
    x ∈ walkList pre es := by
  induction es with
  | nil => cases he
  | cons e1 rest ih =>
      rw [walkList]
      rcases List.mem_cons.mp he with rfl | he2
      · exact List.mem_append_left _ hx
      · exact List.mem_append_right _ (ih he2)

theorem dirAt_mem_walkList : ∀ (suf : Path) (es ents : List Entry) (pre : Path),
    dirAt es suf = some ents → suf ≠ [] → (pre ++ suf, ents) ∈ walkList pre es
  | [], _, _, _, _, hne => absurd rfl hne
  | n :: rest, es, ents, pre, h, _ => by
      rw [dirAt] at h
      rcases hfd : findDir es n with _ | es1
      · rw [hfd] at h; cases h
      · rw [hfd] at h
        have hmem := findDir_mem hfd
        by_cases hr : rest = []
        · subst hr
          have h3 : some es1 = some ents := h
          cases h3
          refine walkEntry_mem_walkList hmem ?_
          rw [walkEntry]
          exact List.mem_cons_self _ _
        · have h3 : dirAt es1 rest = some ents := h
          have h2 := dirAt_mem_walkList rest es1 ents (pre ++ [n]) h3 hr
          refine walkEntry_mem_walkList hmem ?_
          rw [walkEntry]
          refine List.mem_cons_of_mem _ ?_
          simpa [List.append_assoc] using h2

end BomScan

namespace BomScan

theorem walkList_mem_dirAt (es : List Entry) (pre d : Path) (ents : List Entry)
    (hwf : wfList es = true) (hx : (d, ents) ∈ walkList pre es) :
    ∃ suf, suf ≠ [] ∧ d = pre ++ suf ∧ dirAt es suf = some ents := by
  match es, hwf, hx with
  | [], _, hx => simp [walkList] at hx
  | e :: rest, hwf, hx =>
      obtain ⟨he, hdist, hrest⟩ := wfList_cons hwf
      rw [walkList] at hx
      rcases List.mem_append.mp hx with hx | hx
      · obtain ⟨n, es1, rfl, hcase⟩ := walkEntry_cases hx
        rw [wfEntry] at he
        rcases hcase with heq | hx2
        · injection heq with h1 h2
          subst h1
          subst h2
          refine ⟨[n], by simp, rfl, ?_⟩
          have hf : findDir (Entry.dir n ents :: rest) n = some ents := by
            simp [findDir]
          rw [dirAt, hf]
          rfl
        · obtain ⟨suf, hs, hd, hat⟩ :=
            walkList_mem_dirAt es1 (pre ++ [n]) d ents he hx2
          refine ⟨n :: suf, by simp, ?_, ?_⟩
          · rw [hd]; simp
          · have hf : findDir (Entry.dir n es1 :: rest) n = some es1 := by
              simp [findDir]
            rw [dirAt]
            rw [hf]
            exact hat
      · obtain ⟨suf, hs, hd, hat⟩ := walkList_mem_dirAt rest pre d ents hrest hx
        cases suf with
        | nil => exact absurd rfl hs
        | cons m suf2 =>
            rw [dirAt] at hat
            rcases hfd : findDir rest m with _ | es2
            · rw [hfd] at hat; cases hat
            · have hat2 : dirAt es2 suf2 = some ents := by
                rw [hfd] at hat; exact hat
              have hmem := findDir_mem hfd
              have hne : nameOf e ≠ m := fun hc => hdist _ hmem (by
                simpa [nameOf] using hc.symm)
              refine ⟨m :: suf2, hs, hd, ?_⟩
              rw [dirAt, findDir_cons_of_ne hne, hfd]
              exact hat2
termination_by sizeOf es

end BomScan

namespace BomScan

theorem walkList_keys_nodup (es : List Entry) (pre : Path)
    (hwf : wfList es = true) : ((walkList pre es).map Prod.fst).Nodup := by
  match es, hwf with
  | [], _ => simp [walkList]
  | e :: rest, hwf =>
      obtain ⟨he, hdist, hrest⟩ := wfList_cons hwf
      rw [walkList, List.map_append, List.nodup_append]
      refine ⟨?_, walkList_keys_nodup rest pre hrest, ?_⟩
      · match e, he with
        | .file n c, _ => simp [walkEntry]
        | .dirlink n t, _ => simp [walkEntry]
        | .dir n es1, he =>
            rw [wfEntry] at he
            rw [walkEntry, List.map_cons, List.nodup_cons]
            refine ⟨?_, walkList_keys_nodup es1 (pre ++ [n]) he⟩
            intro hmem
            obtain ⟨x, hx, hx1⟩ := List.mem_map.mp hmem
            obtain ⟨e1, _, suf, hsuf⟩ := walkList_shape (pre ++ [n]) es1 x hx
            rw [hsuf] at hx1
            have hlen := congrArg List.length hx1
            simp at hlen
      · intro a ha hb
        obtain ⟨x, hx, hx1⟩ := List.mem_map.mp ha
        obtain ⟨suf, hsuf⟩ := walkEntry_shape hx
        obtain ⟨y, hy, hy1⟩ := List.mem_map.mp hb
        obtain ⟨e1, he1, suf1, hsuf1⟩ := walkList_shape pre rest y hy
        have h1 : a = pre ++ nameOf e :: suf := by rw [← hx1, hsuf]
        have h2 : a = pre ++ nameOf e1 :: suf1 := by rw [← hy1, hsuf1]
        have heq := h1.symm.trans h2
        have h3 := List.append_inj_right heq rfl
        injection h3 with h4 _
        exact hdist e1 he1 h4.symm
termination_by sizeOf es

theorem walkDirs_keys_nodup (es : List Entry) (hwf : wfList es = true) :
    ((walkDirs es).map Prod.fst).Nodup := by
  rw [walkDirs, List.map_cons, List.nodup_cons]
  refine ⟨?_, walkList_keys_nodup es [] hwf⟩
  intro hmem
  obtain ⟨x, hx, hx1⟩ := List.mem_map.mp hmem
  obtain ⟨e1, _, suf, hsuf⟩ := walkList_shape [] es x hx
  rw [hsuf] at hx1
  have hlen := congrArg List.length hx1
  simp at hlen

theorem mem_walkDirs_iff {es : List Entry} (hwf : wfList es = true)
    {d : Path} {ents : List Entry} :
    (d, ents) ∈ walkDirs es ↔ dirAt es d = some ents := by
  rw [walkDirs]
  constructor
  · intro h
    rcases List.mem_cons.mp h with heq | h2
    · injection heq with h1 h2
      subst h1
      subst h2
      rfl
    · obtain ⟨suf, hs, hd, hat⟩ := walkList_mem_dirAt es [] d ents hwf h2
      rw [hd]
      simpa using hat
  · intro h
    cases d with
    | nil =>
        have h2 : some es = some ents := h
        cases h2
        exact List.mem_cons_self _ _
    | cons n rest =>
        refine List.mem_cons_of_mem _ ?_
        have h2 := dirAt_mem_walkList (n :: rest) es ents [] h (by simp)
        simpa using h2

end BomScan

namespace BomScan

theorem mem_recsOfDir {r : FileRec} {p : Path × List Entry} :
    r ∈ recsOfDir p ↔ r.dir = p.1 ∧ Entry.file r.name r.content ∈ p.2 := by
  rcases r with ⟨rd, rn, rc⟩
  rcases p with ⟨d, ents⟩
  simp only [recsOfDir, List.mem_filterMap]
  constructor
  · rintro ⟨e, he, hsome⟩
    match e, hsome with
    | .file n c, hsome =>
        simp only [Option.some.injEq, FileRec.mk.injEq] at hsome
        obtain ⟨h1, h2, h3⟩ := hsome
        subst h1
        subst h2
        subst h3
        exact ⟨rfl, he⟩
    | .dir n es1, hsome => cases hsome
    | .dirlink n t, hsome => cases hsome
  · rintro ⟨h1, h2⟩
    subst h1
    exact ⟨.file rn rc, h2, rfl⟩

theorem recsOfDir_keys_nodup (d : Path) (ents : List Entry)
    (hwf : wfList ents = true) : ((recsOfDir (d, ents)).map pathOf).Nodup := by
  match ents, hwf with
  | [], _ => simp [recsOfDir]
  | e :: rest, hwf =>
      obtain ⟨he, hdist, hrest⟩ := wfList_cons hwf
      match e, hdist with
      | .dir n es1, hdist =>
          have hr : recsOfDir (d, Entry.dir n es1 :: rest) = recsOfDir (d, rest) := by
            simp [recsOfDir]
          rw [hr]
          exact recsOfDir_keys_nodup d rest hrest
      | .dirlink n t, hdist =>
          have hr : recsOfDir (d, Entry.dirlink n t :: rest) = recsOfDir (d, rest) := by
            simp [recsOfDir]
          rw [hr]
          exact recsOfDir_keys_nodup d rest hrest
      | .file n c, hdist =>
          have hr : recsOfDir (d, Entry.file n c :: rest) =
              ⟨d, n, c⟩ :: recsOfDir (d, rest) := by
            simp [recsOfDir]
          rw [hr, List.map_cons, List.nodup_cons]
          refine ⟨?_, recsOfDir_keys_nodup d rest hrest⟩
          intro hmem
          obtain ⟨r, hrm, hp⟩ := List.mem_map.mp hmem
          obtain ⟨hrd, hmem2⟩ := mem_recsOfDir.mp hrm
          rw [pathOf, hrd] at hp
          have hn := (path_snoc_inj hp).2
          have hcontra := hdist _ hmem2
          rw [nameOf, nameOf] at hcontra
          exact hcontra hn

theorem flat_keys_nodup (l : List (Path × List Entry))
    (hfst : (l.map Prod.fst).Nodup)
    (hwf : ∀ p ∈ l, wfList p.2 = true) :
    ((l.flatMap recsOfDir).map pathOf).Nodup := by
  induction l with
  | nil => simp
  | cons p rest ih =>
      rw [List.flatMap_cons, List.map_append, List.nodup_append]
      rw [List.map_cons, List.nodup_cons] at hfst
      refine ⟨?_, ih hfst.2 (fun q hq => hwf q (List.mem_cons_of_mem _ hq)), ?_⟩
      · rcases hp : p with ⟨d, ents⟩
        exact recsOfDir_keys_nodup d ents (by
          have := hwf p (List.mem_cons_self _ _)
          rw [hp] at this
          exact this)
      · intro a ha hb
        obtain ⟨r, hrm, hpr⟩ := List.mem_map.mp ha
        obtain ⟨hrd, _⟩ := mem_recsOfDir.mp hrm
        obtain ⟨s, hsm, hps⟩ := List.mem_map.mp hb
        obtain ⟨q, hq, hsq⟩ := List.mem_flatMap.mp hsm
        obtain ⟨hsd, _⟩ := mem_recsOfDir.mp hsq
        have h1 : a = p.1 ++ [r.name] := by rw [← hpr, pathOf, hrd]
        have h2 : a = q.1 ++ [s.name] := by rw [← hps, pathOf, hsd]
        have h3 := (path_snoc_inj (h1.symm.trans h2)).1
        exact hfst.1 (h3 ▸ List.mem_map_of_mem Prod.fst hq)

theorem walkPairs_keys_nodup (es : List Entry) (hwf : wfList es = true) :
    ((walkPairs es).map pathOf).Nodup := by
  rw [walkPairs]
  refine flat_keys_nodup _ (walkDirs_keys_nodup es hwf) ?_
  rintro ⟨d, ents⟩ hp
  exact dirAt_wf hwf ((mem_walkDirs_iff hwf).mp hp)

theorem mem_walkPairs_iff {es : List Entry} (hwf : wfList es = true)
    {r : FileRec} :
    r ∈ walkPairs es ↔ fileAt es r.dir r.name = some r.content := by
  rw [walkPairs]
  constructor
  · intro h
    obtain ⟨p, hp, hr⟩ := List.mem_flatMap.mp h
    obtain ⟨hrd, hmem⟩ := mem_recsOfDir.mp hr
    rcases p with ⟨d, ents⟩
    simp only at hrd
    subst hrd
    have hat := (mem_walkDirs_iff hwf).mp hp
    have hwf2 := dirAt_wf hwf hat
    rw [fileAt, hat]
    exact mem_findFile hwf2 hmem
  · intro h
    rw [fileAt] at h
    rcases hat : dirAt es r.dir with _ | ents
    · rw [hat] at h; cases h
    · have hff : findFile ents r.name = some r.content := by rw [hat] at h; exact h
      refine List.mem_flatMap.mpr ⟨(r.dir, ents), ?_, ?_⟩
      · exact (mem_walkDirs_iff hwf).mpr hat
      · exact mem_recsOfDir.mpr ⟨rfl, findFile_mem hff⟩

end BomScan

namespace BomScan

/-- A path reported by the scan always designates the candidate file at
that very path; if its first three bytes are not the BOM, the path is
absent from the output. -/
theorem not_reported_of_take_ne (printOk : Path → Bool) {es : List Entry}
    {d : Path} {n : String} {bytes : List Nat}
    (hwf : wfList es = true) (hfile : fileAt es d n = some (some bytes))
    (hbom : bytes.take 3 ≠ bomBytes) :
    d ++ [n] ∉ scan printOk es := by
  intro hmem
  obtain ⟨r, hr, hkeep, hpath⟩ := mem_scan_iff.mp hmem
  rcases r with ⟨rd, rn, rc⟩
  simp only [pathOf] at hpath
  obtain ⟨hd, hn⟩ := path_snoc_inj hpath
  subst hd
  subst hn
  have hat := (mem_walkPairs_iff hwf).mp hr
  simp only at hat
  rw [hfile] at hat
  injection hat with hat1
  subst hat1
  simp only [keep, Bool.and_eq_true] at hkeep
  exact hbom ((bom_isPrefixOf_take bytes).mp hkeep.1.2)

theorem scanTrace_ops {es : List Entry} {op : FsOp} (h : op ∈ scanTrace es) :
    (∃ p, p ∈ walkDirs es ∧ op = FsOp.listdir p.1) ∨
    (∃ p, p ∈ walkDirs es ∧ op ∈ fileOps p) := by
  rw [scanTrace] at h
  obtain ⟨p, hp, hop⟩ := List.mem_flatMap.mp h
  rcases List.mem_cons.mp hop with heq | hop
  · exact Or.inl ⟨p, hp, heq⟩
  · exact Or.inr ⟨p, hp, hop⟩

theorem mem_fileOps {p : Path × List Entry} {op : FsOp} (h : op ∈ fileOps p) :
    ∃ n, extMatch n = true ∧
      (op = FsOp.openRead (p.1 ++ [n]) ∨ op = FsOp.readBytes (p.1 ++ [n]) 3) := by
  rcases p with ⟨d, ents⟩
  rw [fileOps] at h
  obtain ⟨e, he, hop⟩ := List.mem_flatMap.mp h
  match e, hop with
  | .dir n es1, hop => simp at hop
  | .dirlink n t, hop => simp at hop
  | .file n c, hop =>
      simp only at hop
      by_cases hx : extMatch n
      · rw [if_pos hx] at hop
        refine ⟨n, hx, ?_⟩
        rcases List.mem_cons.mp hop with heq | hop2
        · exact Or.inl heq
        · cases c with
          | some bytes =>
              simp only [List.mem_singleton] at hop2
              exact Or.inr hop2
          | none => simp at hop2
      · rw [if_neg hx] at hop
        cases hop

theorem fileOps_readonly {p : Path × List Entry} {op : FsOp}
    (h : op ∈ fileOps p) : readOnlyOp op = true := by
  obtain ⟨n, _, hcase⟩ := mem_fileOps h
  rcases hcase with rfl | rfl <;> rfl

theorem scanTrace_readonly {es : List Entry} {op : FsOp}
    (h : op ∈ scanTrace es) : readOnlyOp op = true := by
  rcases scanTrace_ops h with ⟨p, _, heq⟩ | ⟨p, _, hin⟩
  · rw [heq]; rfl
  · exact fileOps_readonly hin

theorem runTrace_of_readonly (wSem : Path → List Entry → List Entry)
    (es0 : List Entry) (ops : List FsOp)
    (h : ∀ op ∈ ops, readOnlyOp op = true) : runTrace wSem es0 ops = es0 := by
  induction ops generalizing es0 with
  | nil => rfl
  | cons op rest ih =>
      rw [runTrace, List.foldl_cons]
      have h1 : applyOp wSem es0 op = es0 := by
        match op, h op (List.mem_cons_self _ _) with
        | .listdir p, _ => rfl
        | .openRead p, _ => rfl
        | .readBytes p k, _ => rfl
        | .write p, hw => simp [readOnlyOp] at hw
      rw [h1]
      exact ih es0 (fun o ho => h o (List.mem_cons_of_mem _ ho))

theorem keep_split (printOk : Path → Bool) (r : FileRec) :
    keep printOk r = (keep printAll r && printOk (pathOf r)) := by
  rcases r with ⟨d, n, c⟩
  rcases c with _ | bs <;> simp [keep, printAll]

theorem emit_filter (printOk : Path → Bool) (r : FileRec) :
    (emit printAll r).filter printOk = emit printOk r := by
  rw [emit_eq_keep, emit_eq_keep, keep_split printOk r]
  cases hk : keep printAll r <;> simp [hk, List.filter_cons]

end BomScan

namespace BomScan

theorem count_eq_one_of_mem_nodup {α : Type} [BEq α] [LawfulBEq α] {a : α}
    {l : List α} (hd : l.Nodup) (h : a ∈ l) : l.count a = 1 := by
  induction l with
  | nil => cases h
  | cons x rest ih =>
      rw [List.nodup_cons] at hd
      by_cases hax : a = x
      · subst hax
        rw [List.count_cons_self, List.count_eq_zero_of_not_mem hd.1]
      · rcases List.mem_cons.mp h with heq | h2
        · exact absurd heq hax
        · rw [List.count_cons_of_ne hax, ih hd.2 h2]

/-- C1: for every regular file under the root, at any depth, whose name
ends (case-sensitively) in one of `.json .jsonc .mjs .js .ts .yaml .yml`
and whose first three bytes are `EF BB BF`, the scan emits that file's
root-relative path, and emits it exactly once. -/
theorem c1_bom_file_reported_exactly_once (es : List Entry) (d : Path)
    (n : String) (bytes : List Nat) (hwf : wfList es = true)
    (hfile : fileAt es d n = some (some bytes))
    (hext : extMatch n = true)
    (hbom : bytes.take 3 = bomBytes) :
    (output es).count (d ++ [n]) = 1 := by
  have hr : (⟨d, n, some bytes⟩ : FileRec) ∈ walkPairs es :=
    (mem_walkPairs_iff hwf).mpr hfile
  have hpre : bomBytes.isPrefixOf (bytes.take 3) = true :=
    (bom_isPrefixOf_take bytes).mpr hbom
  have hkeep : keep printAll ⟨d, n, some bytes⟩ = true := by
    simp [keep, printAll, hext, hpre]
  rw [output, scan_eq]
  have hnodup : (((walkPairs es).filter (keep printAll)).map pathOf).Nodup := by
    refine List.Nodup.sublist ?_ (walkPairs_keys_nodup es hwf)
    exact List.Sublist.map pathOf (List.filter_sublist _)
  have hmem : d ++ [n] ∈ ((walkPairs es).filter (keep printAll)).map pathOf := by
    refine List.mem_map.mpr ⟨⟨d, n, some bytes⟩, ?_, rfl⟩
    exact List.mem_filter.mpr ⟨hr, hkeep⟩
  exact count_eq_one_of_mem_nodup hnodup hmem

/-- C2: a file whose content does not begin with `EF BB BF` (its first
three bytes differ from the BOM, in particular also when it is shorter
than three bytes) never has its path in the output, whatever its
extension and whatever stdout does. -/
theorem c2_non_bom_file_never_reported (printOk : Path → Bool)
    (es : List Entry) (d : Path) (n : String) (bytes : List Nat)
    (hwf : wfList es = true)
    (hfile : fileAt es d n = some (some bytes))
    (hbom : bytes.take 3 ≠ bomBytes) :
    d ++ [n] ∉ scan printOk es :=
  not_reported_of_take_ne printOk hwf hfile hbom

/-- C3: a file whose name does not end in a recognized extension is never
opened and never read (no `openRead`/`readBytes` operation on its path
appears in the trace), and its path never appears in the output, whatever
its content. -/
theorem c3_unrecognized_extension_skipped (printOk : Path → Bool)
    (es : List Entry) (d : Path) (n : String) (c : Option (List Nat))
    (hfile : fileAt es d n = some c) (hext : extMatch n = false) :
    FsOp.openRead (d ++ [n]) ∉ scanTrace es ∧
    (∀ k, FsOp.readBytes (d ++ [n]) k ∉ scanTrace es) ∧
    d ++ [n] ∉ scan printOk es := by
  refine ⟨?_, ?_, ?_⟩
  · intro h
    rcases scanTrace_ops h with ⟨p, _, heq⟩ | ⟨p, _, hin⟩
    · cases heq
    · obtain ⟨m, hm, hcase⟩ := mem_fileOps hin
      rcases hcase with heq | heq
      · injection heq with h1
        have hn := (path_snoc_inj h1).2
        rw [← hn] at hm
        rw [hext] at hm
        cases hm
      · cases heq
  · intro k h
    rcases scanTrace_ops h with ⟨p, _, heq⟩ | ⟨p, _, hin⟩
    · cases heq
    · obtain ⟨m, hm, hcase⟩ := mem_fileOps hin
      rcases hcase with heq | heq
      · cases heq
      · injection heq with h1 h2
        have hn := (path_snoc_inj h1).2
        rw [← hn] at hm
        rw [hext] at hm
        cases hm
  · intro hmem
    obtain ⟨r, _, hkeep, hpath⟩ := mem_scan_iff.mp hmem
    rcases r with ⟨rd, rn, rc⟩
    simp only [pathOf] at hpath
    obtain ⟨_, hn⟩ := path_snoc_inj hpath
    simp only [keep, Bool.and_eq_true] at hkeep
    have hx := hkeep.1.1
    simp only at hx
    rw [hn, hext] at hx
    cases hx

/-- C4: a candidate file whose open or read raises contributes nothing to
the output, and every candidate before and after it is still processed
exactly as the loop body prescribes; the scan is a total function, so no
failure aborts it. -/
theorem c4_failing_read_skips_only_that_file (printOk : Path → Bool)
    (es : List Entry) (l1 l2 : List FileRec) (r : FileRec)
    (hsplit : walkPairs es = l1 ++ r :: l2) (hfail : r.content = none) :
    scan printOk es = l1.flatMap (emit printOk) ++ l2.flatMap (emit printOk) := by
  have hemit : emit printOk r = [] := by
    simp [emit, hfail]
  rw [scan, hsplit]
  simp [hemit]

/-- C5, counterexample: the claim says a failure of the traversal
primitive itself (missing or non-directory root) propagates uncaught and
crashes the process; in fact CPython's `os.walk`, called with its default
`onerror=None`, ignores the `scandir` failure, so the process exits
normally with empty output. -/
theorem c5_counterexample_missing_root_no_crash :
    runProgram printAll RootState.missing ≠ ProgResult.crashed ∧
    runProgram printAll RootState.missing = ProgResult.exited [] :=
  ⟨by decide, rfl⟩

/-- C5, amended: an error in the traversal primitive itself (the fixed
root path does not exist or is not a directory) is silently ignored by
`os.walk`'s default error handling: the walk yields nothing and the
program terminates normally having printed nothing. -/
theorem c5_amended_missing_root_swallowed (printOk : Path → Bool) :
    runProgram printOk RootState.missing = ProgResult.exited [] := rfl

/-- C6: a candidate file of length 0, 1 or 2 bytes is never reported (its
short read cannot equal the 3-byte BOM), and in general the loop body
emits a path only when at least 3 bytes were read and they equal
`EF BB BF` exactly; the scan, a total function, never aborts. -/
theorem c6_short_file_never_reported (printOk : Path → Bool)
    (es : List Entry) (d : Path) (n : String) (bytes : List Nat)
    (hwf : wfList es = true)
    (hfile : fileAt es d n = some (some bytes))
    (hshort : bytes.length ≤ 2) :
    d ++ [n] ∉ scan printOk es ∧
      ∀ (q : Path) (pOk : Path → Bool) (r : FileRec),
        q ∈ emit pOk r →
        ∃ bs, r.content = some bs ∧ 3 ≤ bs.length ∧ bs.take 3 = bomBytes := by
  constructor
  · have hne : bytes.take 3 ≠ bomBytes := by
      intro hc
      have hlen := congrArg List.length hc
      simp [bomBytes, List.length_take] at hlen
      omega
    exact not_reported_of_take_ne printOk hwf hfile hne
  · intro q pOk r hq
    rw [emit_eq_keep] at hq
    by_cases hk : keep pOk r = true
    · rcases hc : r.content with _ | bs
      · simp [keep, hc] at hk
      · refine ⟨bs, rfl, ?_, ?_⟩
        · have hpre : bomBytes.isPrefixOf (bs.take 3) = true := by
            simp only [keep, hc, Bool.and_eq_true] at hk
            exact hk.1.2
          have htake := (bom_isPrefixOf_take bs).mp hpre
          have hlen := congrArg List.length htake
          simp [bomBytes, List.length_take] at hlen
          omega
        · have hpre : bomBytes.isPrefixOf (bs.take 3) = true := by
            simp only [keep, hc, Bool.and_eq_true] at hk
            exact hk.1.2
          exact (bom_isPrefixOf_take bs).mp hpre
    · rw [if_neg hk] at hq
      cases hq

/-- C8: the scan issues only read operations against the filesystem
(directory listings, opens for binary reading, reads), so running its
trace under any semantics one assigns to writes leaves every file and
directory exactly as it was. -/
theorem c8_scan_never_writes (es : List Entry)
    (wSem : Path → List Entry → List Entry) :
    runTrace wSem es (scanTrace es) = es ∧
    ∀ op ∈ scanTrace es, readOnlyOp op = true :=
  ⟨runTrace_of_readonly wSem es _ (fun _ hop => scanTrace_readonly hop),
   fun _ hop => scanTrace_readonly hop⟩

/-- C9: the per-file exception handler also covers the relative-path
computation and the `print`: a failing emission is swallowed, the matched
path is dropped from the output, and every other candidate is processed
exactly as in a run with healthy stdout — the output under any print
oracle is the healthy output filtered by it. -/
theorem c9_print_failure_drops_only_that_path (printOk : Path → Bool)
    (es : List Entry) :
    scan printOk es = (output es).filter printOk := by
  rw [output, scan, scan]
  generalize walkPairs es = l
  induction l with
  | nil => rfl
  | cons r rest ih =>
      rw [List.flatMap_cons, List.flatMap_cons, List.filter_append, ih,
        emit_filter]

end BomScan

namespace BomScan

/-- All candidate files at or below one listing: the listing's own files
first, then those of the walked subtree. -/
def levelRecs (pre : Path) (es : List Entry) : List FileRec :=
  recsOfDir (pre, es) ++ (walkList pre es).flatMap recsOfDir

/-- The candidate files one entry of a listing accounts for: itself when
it is a file, its whole subtree when it is a directory. -/
def entryRecs (pre : Path) (e : Entry) : List FileRec :=
  recsOfDir (pre, [e]) ++ (walkEntry pre e).flatMap recsOfDir

theorem walkPairs_eq_levelRecs (es : List Entry) :
    walkPairs es = levelRecs [] es := by
  rw [walkPairs, walkDirs, levelRecs, List.flatMap_cons]

theorem recsOfDir_cons (pre : Path) (e : Entry) (rest : List Entry) :
    recsOfDir (pre, e :: rest) = recsOfDir (pre, [e]) ++ recsOfDir (pre, rest) := by
  match e with
  | .file n c => simp [recsOfDir]
  | .dir n es1 => simp [recsOfDir]
  | .dirlink n t => simp [recsOfDir]

theorem perm_shuffle {α : Type} [DecidableEq α] (A B X Y : List α) :
    ((A ++ B) ++ (X ++ Y)).Perm ((A ++ X) ++ (B ++ Y)) := by
  rw [List.perm_iff_count]
  intro a
  simp [List.count_append]
  omega

theorem levelRecs_cons (pre : Path) (e : Entry) (rest : List Entry) :
    (levelRecs pre (e :: rest)).Perm (entryRecs pre e ++ levelRecs pre rest) := by
  rw [levelRecs, entryRecs, levelRecs, recsOfDir_cons, walkList,
    List.flatMap_append]
  exact perm_shuffle _ _ _ _

theorem entryRecs_dir (pre : Path) (n : String) (es : List Entry) :
    entryRecs pre (Entry.dir n es) = levelRecs (pre ++ [n]) es := by
  rw [entryRecs, levelRecs, walkEntry, List.flatMap_cons]
  have h : recsOfDir (pre, [Entry.dir n es]) = [] := by simp [recsOfDir]
  rw [h, List.nil_append]

theorem levelRecs_perm_of_equiv {es es1 : List Entry}
    (h : ListingEquiv es es1) (pre : Path) :
    (levelRecs pre es).Perm (levelRecs pre es1) := by
  induction h generalizing pre with
  | nil => exact List.Perm.refl _
  | consSame e hl ih =>
      exact (levelRecs_cons pre e _).trans
        ((List.Perm.append_left _ (ih pre)).trans (levelRecs_cons pre e _).symm)
  | consDir n hd he ihd ihe =>
      refine (levelRecs_cons pre _ _).trans
        (List.Perm.trans ?_ (levelRecs_cons pre _ _).symm)
      rw [entryRecs_dir, entryRecs_dir]
      exact List.Perm.append (ihd (pre ++ [n])) (ihe pre)
  | swap e1 e2 es2 =>
      refine (levelRecs_cons pre e1 (e2 :: es2)).trans
        (List.Perm.trans ?_ (levelRecs_cons pre e2 (e1 :: es2)).symm)
      refine (List.Perm.append_left _ (levelRecs_cons pre e2 es2)).trans
        (List.Perm.trans (List.perm_append_comm_assoc _ _ _) ?_)
      exact List.Perm.append_left _ (levelRecs_cons pre e1 es2).symm
  | trans h1 h2 ih1 ih2 =>
      exact (ih1 pre).trans (ih2 pre)

end BomScan

namespace BomScan

/-- C7: running the scan twice over an unchanged tree — the second run
seeing every directory listing in a possibly different order — reports
the same paths: the outputs are permutations of each other, hence equal
as sets. -/
theorem c7_rescan_reports_same_set (printOk : Path → Bool)
    {es es1 : List Entry} (h : ListingEquiv es es1) :
    (scan printOk es).Perm (scan printOk es1) ∧
      ∀ p, (p ∈ scan printOk es ↔ p ∈ scan printOk es1) := by
  have hp : (walkPairs es).Perm (walkPairs es1) := by
    rw [walkPairs_eq_levelRecs, walkPairs_eq_levelRecs]
    exact levelRecs_perm_of_equiv h []
  have hscan : (scan printOk es).Perm (scan printOk es1) := by
    rw [scan, scan]
    exact List.Perm.flatMap_right (emit printOk) hp
  exact ⟨hscan, fun p => hscan.mem_iff⟩

theorem recsOfDir_prune (d : Path) (es : List Entry) :
    recsOfDir (d, pruneList es) = recsOfDir (d, es) := by
  induction es with
  | nil => rfl
  | cons e rest ih =>
      match e with
      | .file n c =>
          have hp : pruneList (Entry.file n c :: rest) =
              Entry.file n c :: pruneList rest := rfl
          rw [hp, recsOfDir_cons d (Entry.file n c) (pruneList rest),
            recsOfDir_cons d (Entry.file n c) rest, ih]
      | .dir n es1 =>
          have hp : pruneList (Entry.dir n es1 :: rest) =
              Entry.dir n (pruneList es1) :: pruneList rest := rfl
          rw [hp, recsOfDir_cons d (Entry.dir n (pruneList es1)) (pruneList rest),
            recsOfDir_cons d (Entry.dir n es1) rest, ih]
          simp [recsOfDir]
      | .dirlink n t =>
          have hp : pruneList (Entry.dirlink n t :: rest) = pruneList rest := rfl
          rw [hp, ih, recsOfDir_cons d (Entry.dirlink n t) rest]
          simp [recsOfDir]

theorem walk_flat_prune (es : List Entry) (pre : Path) :
    (walkList pre (pruneList es)).flatMap recsOfDir =
      (walkList pre es).flatMap recsOfDir := by
  match es with
  | [] => rfl
  | .file n c :: rest =>
      have hp : pruneList (Entry.file n c :: rest) =
          Entry.file n c :: pruneList rest := rfl
      rw [hp, walkList, walkList, List.flatMap_append, List.flatMap_append,
        walk_flat_prune rest pre]
  | .dirlink n t :: rest =>
      have hp : pruneList (Entry.dirlink n t :: rest) = pruneList rest := rfl
      rw [hp, walk_flat_prune rest pre, walkList, List.flatMap_append]
      simp [walkEntry]
  | .dir n es1 :: rest =>
      have hp : pruneList (Entry.dir n es1 :: rest) =
          Entry.dir n (pruneList es1) :: pruneList rest := rfl
      rw [hp, walkList, walkList, List.flatMap_append, List.flatMap_append,
        walk_flat_prune rest pre]
      congr 1
      rw [walkEntry, walkEntry, List.flatMap_cons, List.flatMap_cons,
        recsOfDir_prune, walk_flat_prune es1 (pre ++ [n])]
termination_by sizeOf es

theorem walkPairs_prune (es : List Entry) :
    walkPairs (pruneList es) = walkPairs es := by
  rw [walkPairs_eq_levelRecs, walkPairs_eq_levelRecs, levelRecs, levelRecs,
    recsOfDir_prune, walk_flat_prune]

theorem followKids_cyc : ∀ (fuel : Nat) (pre : Path),
    followKids cycRoot fuel pre cycRoot = none
  | 0, pre => by
      have h0 : followDir cycRoot 0 (pre ++ ["loop"]) cycRoot = none := by
        rw [followDir]
      simp only [cycRoot] at h0 ⊢
      simp [followKids, dirAt, h0]
  | fuel + 1, pre => by
      have ih := followKids_cyc fuel (pre ++ ["loop"])
      have h1 : followDir cycRoot (fuel + 1) (pre ++ ["loop"]) cycRoot = none := by
        rw [followDir, ih]
      simp only [cycRoot] at h1 ⊢
      simp [followKids, dirAt, h1]

/-- C10: the traversal never descends into directories reached through
symbolic links (`os.walk` runs with its default `followlinks=False`):
deleting every directory symlink from the tree leaves the output
untouched, and on a root whose single entry is a symlink cycle back to
the root the scan still terminates with empty output, while a
link-following walk exhausts any depth bound without completing. -/
theorem c10_symlink_dirs_never_descended :
    (∀ (printOk : Path → Bool) (es : List Entry),
        scan printOk (pruneList es) = scan printOk es) ∧
    (∀ fuel : Nat, followWalk cycRoot fuel = none) ∧
    output cycRoot = [] := by
  refine ⟨?_, ?_, rfl⟩
  · intro printOk es
    rw [scan, scan, walkPairs_prune]
  · intro fuel
    simp [followWalk, followKids_cyc fuel []]

end BomScan

namespace BomScan

/-- Sample content: the BOM followed by `{}`. -/
def sampleContent : List Nat := bomBytes ++ [0x7b, 0x7d]

/-- A sample root listing exercising every per-file outcome: a BOM json,
a BOM-free ts, a BOM file with unrecognized extension, an unreadable
json, a 2-byte json, a BOM yaml in a subdirectory, a directory symlink. -/
def sampleTree : List Entry :=
  [ .file "a.json" (some sampleContent),
    .file "b.ts" (some [0x65, 0x78]),
    .file "c.txt" (some bomBytes),
    .file "bad.json" none,
    .file "tiny.json" (some [0xEF, 0xBB]),
    .dir "sub" [ .file "d.yaml" (some bomBytes) ],
    .dirlink "link" [] ]

theorem c1_witness :
    wfList sampleTree = true ∧
    fileAt sampleTree [] "a.json" = some (some sampleContent) ∧
    extMatch "a.json" = true ∧
    sampleContent.take 3 = bomBytes ∧
    (output sampleTree).count ["a.json"] = 1 :=
  ⟨by decide, by decide, by decide, by decide,
    c1_bom_file_reported_exactly_once sampleTree [] "a.json" sampleContent
      (by decide) (by decide) (by decide) (by decide)⟩

theorem c2_witness :
    wfList sampleTree = true ∧
    fileAt sampleTree [] "b.ts" = some (some [0x65, 0x78]) ∧
    ([0x65, 0x78] : List Nat).take 3 ≠ bomBytes ∧
    ["b.ts"] ∉ scan printAll sampleTree :=
  ⟨by decide, by decide, by decide,
    c2_non_bom_file_never_reported printAll sampleTree [] "b.ts" [0x65, 0x78]
      (by decide) (by decide) (by decide)⟩

theorem c3_witness :
    fileAt sampleTree [] "c.txt" = some (some bomBytes) ∧
    extMatch "c.txt" = false ∧
    (FsOp.openRead ["c.txt"] ∉ scanTrace sampleTree ∧
      (∀ k, FsOp.readBytes ["c.txt"] k ∉ scanTrace sampleTree) ∧
      ["c.txt"] ∉ scan printAll sampleTree) :=
  ⟨by decide, by decide,
    c3_unrecognized_extension_skipped printAll sampleTree [] "c.txt"
      (some bomBytes) (by decide) (by decide)⟩

/-- The candidates the walk of `sampleTree` meets before the unreadable
file. -/
def beforeBad : List FileRec :=
  [⟨[], "a.json", some sampleContent⟩, ⟨[], "b.ts", some [0x65, 0x78]⟩,
   ⟨[], "c.txt", some bomBytes⟩]

/-- The candidates the walk of `sampleTree` meets after the unreadable
file. -/
def afterBad : List FileRec :=
  [⟨[], "tiny.json", some [0xEF, 0xBB]⟩, ⟨["sub"], "d.yaml", some bomBytes⟩]

theorem c4_witness :
    walkPairs sampleTree =
      beforeBad ++ (⟨[], "bad.json", none⟩ : FileRec) :: afterBad ∧
    (⟨[], "bad.json", none⟩ : FileRec).content = none ∧
    scan printAll sampleTree =
      beforeBad.flatMap (emit printAll) ++ afterBad.flatMap (emit printAll) :=
  ⟨by decide, rfl,
    c4_failing_read_skips_only_that_file printAll sampleTree beforeBad afterBad
      ⟨[], "bad.json", none⟩ (by decide) rfl⟩

theorem c6_witness :
    wfList sampleTree = true ∧
    fileAt sampleTree [] "tiny.json" = some (some [0xEF, 0xBB]) ∧
    ([0xEF, 0xBB] : List Nat).length ≤ 2 ∧
    (["tiny.json"] ∉ scan printAll sampleTree ∧
      ∀ (q : Path) (pOk : Path → Bool) (r : FileRec),
        q ∈ emit pOk r →
        ∃ bs, r.content = some bs ∧ 3 ≤ bs.length ∧ bs.take 3 = bomBytes) :=
  ⟨by decide, by decide, by decide,
    c6_short_file_never_reported printAll sampleTree [] "tiny.json"
      [0xEF, 0xBB] (by decide) (by decide) (by decide)⟩

/-- One run's view of a two-entry root. -/
def treeA : List Entry :=
  [ .file "a.json" (some sampleContent),
    .dir "sub" [ .file "d.yaml" (some bomBytes) ] ]

/-- The other run's view: the same root listed in the opposite order. -/
def treeB : List Entry :=
  [ .dir "sub" [ .file "d.yaml" (some bomBytes) ],
    .file "a.json" (some sampleContent) ]

theorem c7_witness :
    ListingEquiv treeA treeB ∧
    ((scan printAll treeA).Perm (scan printAll treeB) ∧
      ∀ p, (p ∈ scan printAll treeA ↔ p ∈ scan printAll treeB)) :=
  ⟨ListingEquiv.swap _ _ _,
    c7_rescan_reports_same_set printAll (ListingEquiv.swap _ _ _)⟩

end BomScan
